import Mathlib

/-!
Shallow embedding of the commit-graph analysis engine of the
`three-way-merge-finder` tool, together with proofs about its behaviour.

The version-control collaborator (libgit2) is modelled explicitly: a
repository is a finite association list from commit ids (`Nat`, standing for
the 20-byte object hashes) to commit data; the topological revwalk, the
lowest-common-ancestor computation, the tree diff and the blame oracle are
passed in as parameters, constrained by hypotheses that state the contracts
the code relies on.  Rust `panic!`/`unwrap` paths are modelled by `Option`
(`none` = the process aborts); recoverable `Result` errors by `Except`.
-/

namespace TWMF

/-- A commit: ordered parent ids, optional one-line summary (git2 returns
`None` for non-UTF-8 messages), a timestamp in epoch seconds, and the tree,
modelled as an association list from file path to blob id. -/
structure Commit where
  parents : List Nat
  summary : Option String
  time : Int
  tree : List (String × Nat)
deriving DecidableEq

/-- A repository: an association list from commit id to commit data. -/
structure Repo where
  commits : List (Nat × Commit)
deriving DecidableEq

/-- `git2::Repository::find_commit`, as a pure lookup. -/
def Repo.find_commit (r : Repo) (id : Nat) : Option Commit :=
  (r.commits.find? (fun p => p.1 == id)).map (fun p => p.2)

/-- One parent edge: `p` is a direct parent of `c` (which must exist). -/
def parent_step (r : Repo) (c p : Nat) : Prop :=
  ∃ cm, r.find_commit c = some cm ∧ p ∈ cm.parents

/-- `c` is reachable from `head` by following parent edges (reflexively). -/
def Reachable (r : Repo) (head c : Nat) : Prop :=
  Relation.ReflTransGen (parent_step r) head c

/-- `a` is a proper ancestor of `c`: a nonempty parent chain from `c` to `a`. -/
def ProperAncestor (r : Repo) (a c : Nat) : Prop :=
  Relation.TransGen (parent_step r) c a

/-! ## The summary heuristic (`find_bug_fix.rs`, `potential_bug_fix_summary`)

The function matches the summary against the `RAY_MATCHERS` list of
case-insensitive substring regexes `(?i)error`, …, `(?i)type`.
Case-insensitivity is modelled by lowering both sides. -/

/-- `needle` occurs as a contiguous substring of `hay`. -/
def has_substr (needle : List Char) : List Char → Bool
  | [] => needle.isEmpty
  | c :: rest => needle.isPrefixOf (c :: rest) || has_substr needle rest

/-- The `RAY_MATCHERS` keyword list from the source (Ray et al. 2016). -/
def ray_matchers : List String :=
  ["error", "bug", "fix", "issue", "mistake", "incorrect", "fault", "defect",
   "flaw", "type"]

/-- Lower-cased character content of a string (the model of `(?i)`). -/
def lower (s : String) : List Char :=
  s.data.map Char.toLower

/-- `potential_bug_fix_summary`: the summary matches at least one of the
`RAY_MATCHERS` case-insensitive substring patterns. -/
def potential_bug_fix_summary (summary : String) : Bool :=
  ray_matchers.any (fun kw => has_substr (lower kw) (lower summary))

/-- `has_substr` agrees with the declarative infix characterization. -/
theorem has_substr_iff (needle hay : List Char) :
    has_substr needle hay = true ↔ ∃ pre post, hay = pre ++ needle ++ post := by
  induction hay with
  | nil =>
    simp only [has_substr, List.isEmpty_iff]
    constructor
    · rintro rfl
      exact ⟨[], [], rfl⟩
    · rintro ⟨pre, post, h⟩
      rcases List.append_eq_nil.mp (List.append_eq_nil.mp h.symm).1 with ⟨-, h2⟩
      exact h2
  | cons c rest ih =>
    simp only [has_substr, Bool.or_eq_true, ih]
    constructor
    · rintro (h | ⟨pre, post, rfl⟩)
      · rcases List.isPrefixOf_iff_prefix.mp h with ⟨post, hpost⟩
        exact ⟨[], post, by simp [hpost]⟩
      · exact ⟨c :: pre, post, by simp⟩
    · rintro ⟨pre, post, hsplit⟩
      cases pre with
      | nil =>
        left
        exact List.isPrefixOf_iff_prefix.mpr ⟨post, by simpa using hsplit.symm⟩
      | cons x xs =>
        right
        refine ⟨xs, post, ?_⟩
        have h2 := (List.cons_eq_cons.mp (by simpa using hsplit)).2
        simpa [List.append_assoc] using h2

/-- Claim C1 (corrected): the summary heuristic in the source matches the
keyword `type`, not `conflict` — a summary consisting of the single word
`type` is classified as a bug-fix candidate, and one containing `conflict`
(and no other keyword) is not. -/
theorem c1_counterexample :
    potential_bug_fix_summary ("type") = true ∧
    potential_bug_fix_summary ("conflict") = false := by
  decide

/-- Claim C1 (amended): the summary heuristic classifies a commit summary as
a bug-fix candidate if and only if the summary case-insensitively contains at
least one keyword from exactly the list `error, bug, fix, issue, mistake,
incorrect, fault, defect, flaw, type`; in particular, for every summary, the
word `conflict` alone never classifies it as a candidate, while containing
`type` does. -/
theorem c1_summary_heuristic (s : String) :
    (potential_bug_fix_summary s = true ↔
      ∃ kw ∈ ray_matchers, ∃ pre post, lower s = pre ++ lower kw ++ post) ∧
    potential_bug_fix_summary ("type") = true ∧
    potential_bug_fix_summary ("conflict") = false := by
  refine ⟨?_, by decide, by decide⟩
  simp only [potential_bug_fix_summary, List.any_eq_true, has_substr_iff]

/-! ## The descendant propagator (`get_descendants`)

The source obtains a `TOPOLOGICAL | REVERSE` revwalk from HEAD: a
parents-before-children traversal of exactly the commits reachable from the
head reference.  The walk is produced by the collaborator; `ValidWalk`
states its contract. -/

/-- Contract of the reversed topological revwalk the collaborator delivers:
it enumerates, without duplicates, exactly the commits reachable from
`head`; every enumerated commit exists; and every commit appears strictly
after each of its parents. -/
structure ValidWalk (r : Repo) (head : Nat) (walk : List Nat) : Prop where
  nodup : walk.Nodup
  complete : ∀ c, c ∈ walk ↔ Reachable r head c
  exists_mem : ∀ c ∈ walk, (r.find_commit c).isSome
  sorted : ∀ c p, c ∈ walk → parent_step r c p → walk.indexOf p < walk.indexOf c

/-- The body of the `for oid in revwalk` loop of `get_descendants`: look the
commit up (`unwrap`, i.e. abort on failure), and push it onto the result
vector when one of its direct parents is already a member. -/
def descend_loop (r : Repo) : List Nat → List Nat → Option (List Nat)
  | [], ds => some ds
  | oid :: rest, ds =>
    match r.find_commit oid with
    | none => none
    | some cm =>
      if cm.parents.any (fun p => ds.contains p) then
        descend_loop r rest (ds ++ [oid])
      else
        descend_loop r rest ds

/-- `get_descendants`: seed the result vector with the ancestor, run the
reversed topological walk, then `remove(0)` the ancestor. -/
def get_descendants (r : Repo) (walk : List Nat) (ancestor : Nat) : Option (List Nat) :=
  (descend_loop r walk [ancestor]).map (fun ds => ds.eraseIdx 0)

/-- `DescVia r D anc c`: there is a parent chain from `c` down to `anc`
whose every node other than `anc` lies in `D`.  This is the loop invariant
of `get_descendants`: after processing the prefix `D` of the walk, the
result vector holds `anc` followed by exactly such commits `c`. -/
inductive DescVia (r : Repo) (D : List Nat) (anc : Nat) : Nat → Prop where
  | base (c : Nat) (hc : c ∈ D) (h : parent_step r c anc) : DescVia r D anc c
  | cons (c p : Nat) (hc : c ∈ D) (h : parent_step r c p)
      (hp : DescVia r D anc p) : DescVia r D anc c

theorem DescVia.mono {r : Repo} {D D' : List Nat} {anc c : Nat}
    (hsub : ∀ x ∈ D, x ∈ D') (h : DescVia r D anc c) : DescVia r D' anc c := by
  induction h with
  | base c hc h => exact .base c (hsub c hc) h
  | cons c p hc h hp ih => exact .cons c p (hsub c hc) h ih

theorem DescVia.mem {r : Repo} {D : List Nat} {anc c : Nat}
    (h : DescVia r D anc c) : c ∈ D := by
  cases h with
  | base c hc _ => exact hc
  | cons c p hc _ _ => exact hc

theorem DescVia.to_transGen {r : Repo} {D : List Nat} {anc c : Nat}
    (h : DescVia r D anc c) : Relation.TransGen (parent_step r) c anc := by
  induction h with
  | base c _ h => exact .single h
  | cons c p _ h _ ih => exact .head h ih

/-- A commit reachable from the head is a walk member, and its parents too. -/
theorem ValidWalk.closed {r : Repo} {head : Nat} {walk : List Nat}
    (hw : ValidWalk r head walk) :
    ∀ c ∈ walk, ∀ p, parent_step r c p → p ∈ walk := by
  intro c hc p hstep
  have hr : Reachable r head c := (hw.complete c).mp hc
  exact (hw.complete p).mpr (Relation.ReflTransGen.tail hr hstep)

/-- Along a parent chain starting inside the walk, walk indices strictly
decrease. -/
theorem ValidWalk.indexOf_lt {r : Repo} {head : Nat} {walk : List Nat}
    (hw : ValidWalk r head walk) {a : Nat} :
    ∀ {c}, Relation.TransGen (parent_step r) c a → c ∈ walk →
      walk.indexOf a < walk.indexOf c := by
  intro c h
  induction h using Relation.TransGen.head_induction_on with
  | base h => exact fun hc => hw.sorted _ _ hc h
  | ih h' _ ih =>
    intro hc
    exact lt_trans (ih (hw.closed _ hc _ h')) (hw.sorted _ _ hc h')

/-- No commit in the walk lies on a parent cycle. -/
theorem ValidWalk.no_cycle {r : Repo} {head : Nat} {walk : List Nat}
    (hw : ValidWalk r head walk) {c : Nat} (hc : c ∈ walk) :
    ¬ Relation.TransGen (parent_step r) c c := by
  intro h
  exact lt_irrefl _ (hw.indexOf_lt h hc)

/-- Every prefix of the walk is closed under taking parents. -/
theorem ValidWalk.prefix_closed {r : Repo} {head : Nat} {walk D rest : List Nat}
    (hw : ValidWalk r head walk) (hsplit : walk = D ++ rest) :
    ∀ c ∈ D, ∀ p, parent_step r c p → p ∈ D := by
  subst hsplit
  intro c hc p hstep
  have hcw : c ∈ D ++ rest := List.mem_append_left _ hc
  have hpw : p ∈ D ++ rest := hw.closed _ hcw _ hstep
  have hlt : (D ++ rest).indexOf p < (D ++ rest).indexOf c := hw.sorted _ _ hcw hstep
  have hcD : (D ++ rest).indexOf c = D.indexOf c := List.indexOf_append_of_mem hc
  have hcDlen : (D ++ rest).indexOf c < D.length := by
    rw [hcD]; exact List.indexOf_lt_length.mpr hc
  have hpDlen : (D ++ rest).indexOf p < D.length := lt_trans hlt hcDlen
  have hplen : (D ++ rest).indexOf p < (D ++ rest).length := List.indexOf_lt_length.mpr hpw
  have hval : (D ++ rest)[(D ++ rest).indexOf p] = p := List.getElem_indexOf hplen
  have hval2 := @List.getElem_append_left _ ((D ++ rest).indexOf p) D rest hpDlen hplen
  rw [hval] at hval2
  rw [hval2]
  exact List.getElem_mem hpDlen

/-- A chain from a walk member stays describable inside the whole walk. -/
theorem descVia_of_transGen {r : Repo} {head : Nat} {walk : List Nat}
    (hw : ValidWalk r head walk) {anc : Nat} :
    ∀ {c}, Relation.TransGen (parent_step r) c anc → c ∈ walk →
      DescVia r walk anc c := by
  intro c h
  induction h using Relation.TransGen.head_induction_on with
  | base h => exact fun hc => .base _ hc h
  | ih h' _ ih =>
    intro hc
    exact .cons _ _ hc h' (ih (hw.closed _ hc _ h'))

/-- Adjoining the commit about to be processed to the processed prefix
changes the invariant predicate in exactly one way: the new commit becomes a
descendant precisely when one of its parents already is one (or is the
ancestor itself). -/
theorem descVia_append_one {r : Repo} {head : Nat} {walk D rest : List Nat}
    {oid anc : Nat} (hw : ValidWalk r head walk)
    (hsplit : walk = D ++ oid :: rest) (c : Nat) :
    DescVia r (D ++ [oid]) anc c ↔
      DescVia r D anc c ∨
        (c = oid ∧ ∃ p, parent_step r oid p ∧ (p = anc ∨ DescVia r D anc p)) := by
  have hoid_walk : oid ∈ walk := by
    rw [hsplit]; exact List.mem_append_right _ (List.mem_cons_self _ _)
  have hoid_notD : oid ∉ D := by
    intro hmem
    rw [hsplit] at hw
    have := hw.nodup
    rcases List.nodup_append.mp this with ⟨-, -, hdisj⟩
    exact hdisj hmem (List.mem_cons_self _ _)
  constructor
  · intro h
    induction h with
    | base c hc h =>
      rcases List.mem_append.mp hc with hcD | hco
      · exact Or.inl (.base c hcD h)
      · have : c = oid := List.mem_singleton.mp hco
        exact Or.inr ⟨this, anc, this ▸ h, Or.inl rfl⟩
    | cons c p hc h hp ih =>
      rcases List.mem_append.mp hc with hcD | hco
      · -- the parent of a prefix commit is itself in the prefix
        have hpD : p ∈ D := hw.prefix_closed hsplit c hcD p h
        rcases ih with hD | ⟨rfl, -⟩
        · exact Or.inl (.cons c p hcD h hD)
        · exact absurd hpD hoid_notD
      · have hceq : c = oid := List.mem_singleton.mp hco
        subst hceq
        rcases ih with hD | ⟨rfl, -⟩
        · exact Or.inr ⟨rfl, p, h, Or.inr hD⟩
        · -- a self-parent would be a cycle
          exact absurd (Relation.TransGen.single h) (hw.no_cycle hoid_walk)
  · intro h
    rcases h with hD | ⟨rfl, p, hstep, hp⟩
    · exact hD.mono (fun x hx => List.mem_append_left _ hx)
    · have hco : c ∈ D ++ [c] := List.mem_append_right _ (List.mem_singleton.mpr rfl)
      rcases hp with rfl | hpD
      · exact .base c hco hstep
      · exact .cons c p hco hstep (hpD.mono (fun x hx => List.mem_append_left _ hx))

/-- Loop invariant of `get_descendants`: running the loop over the remaining
suffix extends the result vector to `anc` followed by exactly the
descendants describable within the whole walk. -/
theorem descend_loop_spec {r : Repo} {head : Nat} {walk : List Nat}
    (hw : ValidWalk r head walk) (anc : Nat) :
    ∀ rest D E, walk = D ++ rest →
      (∀ c, c ∈ E ↔ DescVia r D anc c) →
      ∃ E', descend_loop r rest (anc :: E) = some (anc :: E') ∧
        (∀ c, c ∈ E' ↔ DescVia r walk anc c) := by
  intro rest
  induction rest with
  | nil =>
    intro D E hsplit hinv
    refine ⟨E, rfl, ?_⟩
    rw [hsplit, List.append_nil]
    exact hinv
  | cons oid rest' ih =>
    intro D E hsplit hinv
    have hoid_walk : oid ∈ walk := by
      rw [hsplit]; exact List.mem_append_right _ (List.mem_cons_self _ _)
    obtain ⟨cm, hcm⟩ := Option.isSome_iff_exists.mp (hw.exists_mem _ hoid_walk)
    have hcond : (cm.parents.any (fun p => (anc :: E).contains p) = true) ↔
        ∃ p, parent_step r oid p ∧ (p = anc ∨ DescVia r D anc p) := by
      simp only [List.any_eq_true, List.elem_iff, List.mem_cons]
      constructor
      · rintro ⟨p, hp, hmem | hmem⟩
        · exact ⟨p, ⟨cm, hcm, hp⟩, Or.inl hmem⟩
        · exact ⟨p, ⟨cm, hcm, hp⟩, Or.inr ((hinv p).mp hmem)⟩
      · rintro ⟨p, ⟨cm', hcm', hp⟩, hmem⟩
        rw [hcm] at hcm'
        cases hcm'
        refine ⟨p, hp, ?_⟩
        rcases hmem with rfl | hD
        · exact Or.inl rfl
        · exact Or.inr ((hinv p).mpr hD)
    have hsplit' : walk = (D ++ [oid]) ++ rest' := by
      rw [hsplit, List.append_assoc, List.singleton_append]
    simp only [descend_loop, hcm]
    by_cases hc : cm.parents.any (fun p => (anc :: E).contains p) = true
    · rw [if_pos hc]
      have hnew : ∀ c, c ∈ E ++ [oid] ↔ DescVia r (D ++ [oid]) anc c := by
        intro c
        rw [descVia_append_one hw hsplit]
        simp only [List.mem_append, List.mem_singleton, hinv]
        constructor
        · rintro (hD | rfl)
          · exact Or.inl hD
          · exact Or.inr ⟨rfl, hcond.mp hc⟩
        · rintro (hD | ⟨rfl, -⟩)
          · exact Or.inl hD
          · exact Or.inr rfl
      have : anc :: E ++ [oid] = anc :: (E ++ [oid]) := by simp
      rw [this]
      exact ih (D ++ [oid]) (E ++ [oid]) hsplit' hnew
    · rw [if_neg hc]
      have hnew : ∀ c, c ∈ E ↔ DescVia r (D ++ [oid]) anc c := by
        intro c
        rw [descVia_append_one hw hsplit]
        simp only [hinv]
        constructor
        · intro hD
          exact Or.inl hD
        · rintro (hD | ⟨rfl, hp⟩)
          · exact hD
          · exact absurd (hcond.mpr hp) hc
      exact ih (D ++ [oid]) E hsplit' hnew

/-- Characterization of `get_descendants` over a valid walk: it succeeds and
returns exactly the reachable commits of which `anc` is a proper ancestor. -/
theorem get_descendants_char {r : Repo} {head : Nat} {walk : List Nat}
    (hw : ValidWalk r head walk) (anc : Nat) :
    ∃ ds, get_descendants r walk anc = some ds ∧
      (∀ c, c ∈ ds ↔ (Reachable r head c ∧ ProperAncestor r anc c)) := by
  obtain ⟨E', hloop, hchar⟩ :=
    descend_loop_spec hw anc walk [] [] rfl (by
      intro c
      constructor
      · intro h; exact absurd h (List.not_mem_nil c)
      · intro h; exact absurd h.mem (List.not_mem_nil c))
  have hmain : ∀ c, c ∈ E' ↔ (Reachable r head c ∧ ProperAncestor r anc c) := by
    intro c
    rw [hchar c]
    constructor
    · intro h
      exact ⟨(hw.complete c).mp h.mem, h.to_transGen⟩
    · rintro ⟨hr, hp⟩
      exact descVia_of_transGen hw hp ((hw.complete c).mpr hr)
  refine ⟨E', ?_, hmain⟩
  simp only [get_descendants, hloop, Option.map_some]
  rfl

/-- Claim C2: over a valid reversed-topological walk from the head, the
descendant computation succeeds (no error) and returns exactly the set of
commits reachable from the head of which the ancestor is a proper ancestor;
the ancestor itself never appears, and when the ancestor has no reachable
descendants — in particular when it is unreachable from the head — the
result is the empty list. -/
theorem c2_get_descendants (r : Repo) (head : Nat) (walk : List Nat) (anc : Nat)
    (hw : ValidWalk r head walk) :
    ∃ ds, get_descendants r walk anc = some ds ∧
      (∀ c, c ∈ ds ↔ (Reachable r head c ∧ ProperAncestor r anc c)) ∧
      anc ∉ ds ∧
      ((∀ c, ¬(Reachable r head c ∧ ProperAncestor r anc c)) → ds = []) := by
  obtain ⟨ds, hds, hmain⟩ := get_descendants_char hw anc
  refine ⟨ds, hds, hmain, ?_, ?_⟩
  · intro hmem
    have := ((hmain anc).mp hmem)
    exact hw.no_cycle ((hw.complete anc).mpr this.1) this.2
  · intro hnone
    rcases List.eq_nil_or_concat ds with rfl | ⟨l, a, rfl⟩
    · rfl
    · have ha : a ∈ l.concat a := by simp
      exact absurd ((hmain a).mp ha) (hnone a)

/-- Reachability stays inside any parent-closed set containing the head. -/
theorem reachable_mem {r : Repo} {head : Nat} {S : List Nat} (hhead : head ∈ S)
    (hcl : ∀ c ∈ S, ∀ p, parent_step r c p → p ∈ S) {c : Nat}
    (h : Reachable r head c) : c ∈ S := by
  induction h with
  | refl => exact hhead
  | tail _ hstep ih => exact hcl _ ih _ hstep

/-- A two-commit repository used to instantiate the graph-level theorems:
commit 1 (the head) has the single parent 0. -/
def rW : Repo := ⟨[(0, ⟨[], some ("root"), 0, []⟩), (1, ⟨[0], some ("head"), 1, []⟩)]⟩

theorem rW_find (c : Nat) : rW.find_commit c =
    if c = 0 then some ⟨[], some ("root"), 0, []⟩
    else if c = 1 then some ⟨[0], some ("head"), 1, []⟩ else none := by
  by_cases h0 : c = 0
  · subst h0; rfl
  · by_cases h1 : c = 1
    · subst h1; rfl
    · rw [if_neg h0, if_neg h1]
      simp only [rW, Repo.find_commit]
      rw [List.find?_cons_of_neg _ (by simp [Ne.symm h0]),
        List.find?_cons_of_neg _ (by simp [Ne.symm h1]), List.find?_nil]
      rfl

theorem rW_step (c p : Nat) : parent_step rW c p ↔ (c = 1 ∧ p = 0) := by
  constructor
  · rintro ⟨cm, hcm, hp⟩
    rw [rW_find] at hcm
    by_cases h0 : c = 0
    · subst h0
      simp only [if_true, reduceIte, Option.some_inj] at hcm
      subst hcm
      simp at hp
    · by_cases h1 : c = 1
      · subst h1
        norm_num at hcm
        subst hcm
        simp at hp
        exact ⟨rfl, hp⟩
      · rw [if_neg h0, if_neg h1] at hcm
        exact absurd hcm (Option.noConfusion)
  · rintro ⟨rfl, rfl⟩
    exact ⟨⟨[0], some ("head"), 1, []⟩, rfl, by simp⟩

theorem validWalk_rW : ValidWalk rW 1 [0, 1] := by
  refine ⟨by decide, ?_, by decide, ?_⟩
  · intro c
    constructor
    · intro hc
      rcases List.mem_pair.mp hc with rfl | rfl
      · exact Relation.ReflTransGen.single ((rW_step 1 0).mpr ⟨rfl, rfl⟩)
      · exact Relation.ReflTransGen.refl
    · intro hr
      refine reachable_mem (by decide) ?_ hr
      intro c hc p hstep
      rcases (rW_step c p).mp hstep with ⟨rfl, rfl⟩
      decide
  · intro c p hc hstep
    rcases (rW_step c p).mp hstep with ⟨rfl, rfl⟩
    decide

/-- Witness for C2: the two-commit repository, ancestor 0. -/
theorem c2_witness :
    ∃ ds, get_descendants rW [0, 1] 0 = some ds ∧
      (∀ c, c ∈ ds ↔ (Reachable rW 1 c ∧ ProperAncestor rW 0 c)) ∧
      0 ∉ ds ∧
      ((∀ c, ¬(Reachable rW 1 c ∧ ProperAncestor rW 0 c)) → ds = []) :=
  c2_get_descendants rW 1 [0, 1] 0 validWalk_rW

/-! ## `find_bug_fixing_commits` (`find_bug_fix.rs`)

`git2::Oid::from_str` parses a 40-character hex string; it consults only the
string, never the repository.  The id value is modelled as the number the
hex digits denote. -/

def is_hex_digit (c : Char) : Bool :=
  c.isDigit || ('a' ≤ c && c ≤ 'f') || ('A' ≤ c && c ≤ 'F')

def hex_val (c : Char) : Nat :=
  if c.isDigit then c.toNat - 48
  else if 'a' ≤ c && c ≤ 'f' then c.toNat - 87
  else c.toNat - 55

/-- `git2::Oid::from_str`: succeeds exactly on syntactically valid
40-character hex object ids, independent of any repository. -/
def parseOid (s : String) : Option Nat :=
  if s.data.length = 40 && s.data.all is_hex_digit then
    some (s.data.foldl (fun acc c => 16 * acc + hex_val c) 0)
  else none

/-- The recoverable (`Result`) error of the bug-fix search: `Oid::from_str`
rejected the ancestor string. -/
inductive GitErr where
  | invalidOid
deriving DecidableEq

/-- The per-descendant predicate of the summary filter: keep the descendant
when its commit is found and the summary (or `""`) matches the heuristic; a
failed lookup marks it not-a-fix (it is reported and dropped). -/
def keep_fix (r : Repo) (d : Nat) : Bool :=
  match r.find_commit d with
  | some cm => potential_bug_fix_summary (cm.summary.getD (""))
  | none => false

/-- The summary-filter pass of `find_bug_fixing_commits`: collect the
enumerated indices of the non-matching descendants, reverse them, and
`Vec::remove` each index from the back. -/
def message_filter (r : Repo) (ds : List Nat) : List Nat :=
  let not_a_fix := ((ds.enum.filter (fun p => !keep_fix r p.2)).map (fun p => p.1)).reverse
  not_a_fix.foldl (fun acc idx => acc.eraseIdx idx) ds

/-- `find_bug_fixing_commits`: parse the ancestor string, compute the
descendants, filter them by the summary heuristic. -/
def find_bug_fixing_commits (r : Repo) (walk : List Nat) (ancestor_str : String) :
    Option (Except GitErr (List Nat)) :=
  match parseOid ancestor_str with
  | none => some (Except.error GitErr.invalidOid)
  | some anc =>
    match get_descendants r walk anc with
    | none => none
    | some ds => some (Except.ok (message_filter r ds))

/-- Shifting every enumeration index by one shifts the collected removal
indices by one. -/
theorem idx_shift {α : Type} (q : α → Bool) :
    ∀ (xs : List α) (n : Nat),
      ((List.enumFrom (n + 1) xs).filter (fun p => !q p.2)).map (fun p => p.1)
        = (((List.enumFrom n xs).filter (fun p => !q p.2)).map (fun p => p.1)).map
            Nat.succ := by
  intro xs
  induction xs with
  | nil => intro n; rfl
  | cons y ys ih =>
    intro n
    simp only [List.enumFrom_cons, List.filter_cons]
    by_cases hq : (!q y) = true
    · rw [if_pos hq, if_pos hq]
      simp only [List.map_cons, ih (n + 1)]
    · rw [if_neg hq, if_neg hq]
      exact ih (n + 1)

/-- Removing the successor indices from `x :: l` removes the original
indices from `l`, leaving `x` in place. -/
theorem foldl_eraseIdx_succ {α : Type} (I : List Nat) :
    ∀ (x : α) (l : List α),
      (I.map Nat.succ).foldl (fun acc i => acc.eraseIdx i) (x :: l)
        = x :: I.foldl (fun acc i => acc.eraseIdx i) l := by
  induction I with
  | nil => intro x l; rfl
  | cons i is ih =>
    intro x l
    simp only [List.map_cons, List.foldl_cons, List.eraseIdx_cons_succ]
    exact ih x _

/-- The enumerate/collect/reverse/`Vec::remove` dance of the summary filter
is exactly `filter`. -/
theorem foldl_eraseIdx_filter {α : Type} (q : α → Bool) :
    ∀ l : List α,
      ((((l.enum).filter (fun p => !q p.2)).map (fun p => p.1)).reverse).foldl
        (fun acc idx => acc.eraseIdx idx) l = l.filter q := by
  intro l
  induction l with
  | nil => rfl
  | cons x xs ih =>
    have henum : (x :: xs).enum = (0, x) :: List.enumFrom 1 xs := List.enum_cons
    rw [henum, List.filter_cons]
    have hshift : ((List.enumFrom 1 xs).filter (fun p => !q p.2)).map (fun p => p.1)
        = (((xs.enum).filter (fun p => !q p.2)).map (fun p => p.1)).map Nat.succ :=
      idx_shift q xs 0
    by_cases hq : (!q x) = true
    · -- x is not a fix: its index 0 is removed last
      rw [if_pos hq]
      simp only [List.map_cons, List.reverse_cons]
      rw [hshift, ← List.map_reverse, List.foldl_append, foldl_eraseIdx_succ, ih]
      simp only [List.foldl_cons, List.foldl_nil, List.eraseIdx_cons_zero]
      have hqx : q x = false := by simpa using hq
      simp [List.filter_cons, hqx]
    · rw [if_neg hq]
      rw [hshift, ← List.map_reverse, foldl_eraseIdx_succ, ih]
      have hqx : q x = true := by simpa using hq
      simp [List.filter_cons, hqx]

/-- The summary filter retains exactly the descendants satisfying
`keep_fix`. -/
theorem message_filter_eq (r : Repo) (ds : List Nat) :
    message_filter r ds = ds.filter (keep_fix r) :=
  foldl_eraseIdx_filter (keep_fix r) ds

/-- Claim C5 (corrected): an ancestor identifier that is syntactically valid
but does not resolve to any commit in the repository is NOT reported as a
`NotFound` error — `find_bug_fixing_commits` succeeds and silently returns
the empty candidate list.  Here commit id 2 does not exist in `rW`, the
string parses to it, and the call returns `ok []`. -/
theorem c5_counterexample :
    parseOid ("0000000000000000000000000000000000000002") = some 2 ∧
    rW.find_commit 2 = none ∧
    find_bug_fixing_commits rW [0, 1]
      ("0000000000000000000000000000000000000002") = some (Except.ok []) :=
  ⟨rfl, rfl, rfl⟩

/-- Claim C5 (amended): only a syntactically invalid ancestor string makes
`find_bug_fixing_commits` fail (with the parse error, before any traversal);
a syntactically valid identifier that is unreachable from the head — in
particular one that resolves to no commit at all — is silently treated as
having no descendants: the call succeeds with the empty list. -/
theorem c5_unresolvable_ancestor (r : Repo) (head : Nat) (walk : List Nat)
    (hw : ValidWalk r head walk) (s : String) :
    (parseOid s = none →
      find_bug_fixing_commits r walk s = some (Except.error GitErr.invalidOid)) ∧
    (∀ a, parseOid s = some a → ¬ Reachable r head a →
      find_bug_fixing_commits r walk s = some (Except.ok [])) := by
  constructor
  · intro hpar
    simp only [find_bug_fixing_commits, hpar]
  · intro a hpar hunreach
    obtain ⟨ds, hds, hchar⟩ := get_descendants_char hw a
    have hnil : ds = [] := by
      rcases List.eq_nil_or_concat ds with rfl | ⟨l, c, rfl⟩
      · rfl
      · exfalso
        have hc : c ∈ l.concat c := by simp
        obtain ⟨hr, hp⟩ := (hchar c).mp hc
        exact hunreach (hr.trans hp.to_reflTransGen)
    subst hnil
    simp only [find_bug_fixing_commits, hpar, hds]
    rfl

/-- Witness for C5 (amended): in `rW`, the malformed string `zz` fails the
parse, and the valid id of the absent commit 2 yields the empty list. -/
theorem c5_witness :
    find_bug_fixing_commits rW [0, 1] ("zz") = some (Except.error GitErr.invalidOid) ∧
    find_bug_fixing_commits rW [0, 1]
      ("0000000000000000000000000000000000000002") = some (Except.ok []) := by
  have hunreach : ¬ Reachable rW 1 2 := by
    intro h
    have hmem : (2 : Nat) ∈ [0, 1] := by
      refine reachable_mem (by decide) ?_ h
      intro c hc p hstep
      rcases (rW_step c p).mp hstep with ⟨rfl, rfl⟩
      decide
    simp at hmem
  exact ⟨(c5_unresolvable_ancestor rW 1 [0, 1] validWalk_rW ("zz")).1 rfl,
    (c5_unresolvable_ancestor rW 1 [0, 1] validWalk_rW
      ("0000000000000000000000000000000000000002")).2 2 rfl hunreach⟩

/-! ## `within_n_generations` (`git_utils.rs`)

`repo.find_commit(*child).unwrap()` aborts on a failed lookup (`none`); the
inner `for ancestor in child.parents()` materializes each parent commit (a
failed lookup aborts), compares its id against the root — returning `true`
from the whole function on a hit — and otherwise collects it for the next
generation. -/

/-- One child's `for ancestor in child.parents()` loop: returns `(true, _)`
on finding the root, else `(false, collected parents)`. -/
def scan_child_parents (r : Repo) (root : Nat) : List Nat → Option (Bool × List Nat)
  | [] => some (false, [])
  | p :: ps =>
    match r.find_commit p with
    | none => none
    | some _ =>
      if root = p then some (true, [])
      else (scan_child_parents r root ps).map (fun res => (res.1, p :: res.2))

/-- One generation: scan each child's parents in order, short-circuiting on
the root, collecting the next generation otherwise. -/
def scan_gen (r : Repo) (root : Nat) : List Nat → Option (Bool × List Nat)
  | [] => some (false, [])
  | c :: cs =>
    match r.find_commit c with
    | none => none
    | some cm =>
      match scan_child_parents r root cm.parents with
      | none => none
      | some (true, _) => some (true, [])
      | some (false, acc) =>
        (scan_gen r root cs).map (fun res => (res.1, acc ++ res.2))

/-- The `for _ in 0..n` generation loop. -/
def within_loop (r : Repo) (root : Nat) : Nat → List Nat → Option Bool
  | 0, _ => some false
  | Nat.succ k, children =>
    match scan_gen r root children with
    | none => none
    | some (true, _) => some true
    | some (false, next) => within_loop r root k next

/-- `within_n_generations`: walk parent edges up to `n` generations from
`child`, returning whether the root is encountered. -/
def within_n_generations (r : Repo) (root child : Nat) (n : Nat) : Option Bool :=
  match r.find_commit child with
  | none => none
  | some _ => within_loop r root n [child]

/-- When every parent exists, the parent scan finds the root exactly when it
is among the parents, and otherwise collects all of them. -/
theorem scan_child_parents_char (r : Repo) (root : Nat) (ps : List Nat)
    (h : ∀ p ∈ ps, (r.find_commit p).isSome) :
    (root ∈ ps → ∃ acc, scan_child_parents r root ps = some (true, acc)) ∧
    (root ∉ ps → scan_child_parents r root ps = some (false, ps)) := by
  induction ps with
  | nil =>
    exact ⟨fun hmem => absurd hmem (List.not_mem_nil root), fun _ => rfl⟩
  | cons p ps ih =>
    obtain ⟨cm, hcm⟩ := Option.isSome_iff_exists.mp (h p (List.mem_cons_self _ _))
    have hrest : ∀ q ∈ ps, (r.find_commit q).isSome :=
      fun q hq => h q (List.mem_cons_of_mem _ hq)
    obtain ⟨ihpos, ihneg⟩ := ih hrest
    constructor
    · intro hmem
      by_cases heq : root = p
      · exact ⟨[], by simp only [scan_child_parents, hcm, if_pos heq]⟩
      · have hmem' : root ∈ ps := by
          rcases List.mem_cons.mp hmem with h' | h'
          · exact absurd h' heq
          · exact h'
        obtain ⟨acc, hacc⟩ := ihpos hmem'
        refine ⟨p :: acc, ?_⟩
        simp only [scan_child_parents, hcm, if_neg heq, hacc]
        rfl
    · intro hmem
      have heq : ¬ root = p := fun h' => hmem (h' ▸ List.mem_cons_self _ _)
      have hmem' : root ∉ ps := fun h' => hmem (List.mem_cons_of_mem _ h')
      simp only [scan_child_parents, hcm, if_neg heq, ihneg hmem']
      rfl

/-- Claim C6: for an existing candidate whose parents all exist,
`within_n_generations` with `n = 0` returns `false`, and with `n = 1` it
returns `true` exactly when the reference commit is a direct parent of the
candidate. -/
theorem c6_within_n_generations (r : Repo) (root child : Nat) (cm : Commit)
    (h1 : r.find_commit child = some cm)
    (h2 : ∀ p ∈ cm.parents, (r.find_commit p).isSome) :
    within_n_generations r root child 0 = some false ∧
    (within_n_generations r root child 1 = some true ↔ root ∈ cm.parents) := by
  obtain ⟨hpos, hneg⟩ := scan_child_parents_char r root cm.parents h2
  constructor
  · simp only [within_n_generations, h1]
    rfl
  · simp only [within_n_generations, h1]
    by_cases hmem : root ∈ cm.parents
    · obtain ⟨acc, hacc⟩ := hpos hmem
      simp only [within_loop, scan_gen, h1, hacc]
      exact iff_of_true trivial hmem
    · simp only [within_loop, scan_gen, h1, hneg hmem]
      exact iff_of_false (by simp) hmem

/-- Witness for C6: in `rW`, commit 1 is a direct child of commit 0. -/
theorem c6_witness :
    within_n_generations rW 0 1 0 = some false ∧
    within_n_generations rW 0 1 1 = some true := by
  obtain ⟨h0, hiff⟩ := c6_within_n_generations rW 0 1 ⟨[0], some ("head"), 1, []⟩
    rfl (by decide)
  exact ⟨h0, hiff.mpr (by decide)⟩

/-! ## The merge quadruple detector (`merge.rs`, `find_merges`)

The lowest-common-ancestor computation (`repo.merge_base`) is an external
collaborator, passed in as `mb`.  A failed commit lookup inside the iterator
chain is an `expect` (process abort, `none`); a failed `merge_base` is
logged and the candidate dropped (`flatten`). -/

/-- The `O, A, B, M` quadruple of a detected three-way merge. -/
structure ThreeWayMerge where
  o : Nat
  a : Nat
  b : Nat
  m : Nat
deriving DecidableEq

/-- The `before` filter: keep the commit when no bound is supplied, or when
its timestamp is strictly earlier than the bound. -/
def before_ok (before : Option Int) (t : Int) : Bool :=
  match before with
  | some b => decide (t < b)
  | none => true

/-- `find_merges`: walk the traversal, keep commits with exactly two
parents that pass the `before` filter, compute the merge base of the two
parents in their recorded order, and drop the candidate when it fails. -/
def find_merges (r : Repo) (mb : Nat → Nat → Option Nat) (before : Option Int) :
    List Nat → Option (List ThreeWayMerge)
  | [] => some []
  | oid :: rest =>
    match r.find_commit oid with
    | none => none
    | some cm =>
      if cm.parents.length == 2 && before_ok before cm.time then
        match mb (cm.parents.getD 0 0) (cm.parents.getD 1 0) with
        | some base =>
          (find_merges r mb before rest).map
            (fun l => ⟨base, cm.parents.getD 0 0, cm.parents.getD 1 0, oid⟩ :: l)
        | none => find_merges r mb before rest
      else find_merges r mb before rest

/-- The exact per-commit condition under which `find_merges` emits a
quadruple: two parents, `before` bound satisfied, merge base found. -/
def merge_criteria (r : Repo) (mb : Nat → Nat → Option Nat) (before : Option Int)
    (c : Nat) : Bool :=
  match r.find_commit c with
  | none => false
  | some cm =>
    cm.parents.length == 2 && before_ok before cm.time
      && (mb (cm.parents.getD 0 0) (cm.parents.getD 1 0)).isSome

/-- Full characterization of `find_merges` when every traversed commit
exists: it succeeds, emits exactly the commits satisfying `merge_criteria`
(in traversal order), and every emitted quadruple records the two parents in
order together with their merge base. -/
theorem find_merges_spec (r : Repo) (mb : Nat → Nat → Option Nat)
    (before : Option Int) :
    ∀ walk : List Nat, (∀ c ∈ walk, (r.find_commit c).isSome) →
      ∃ l, find_merges r mb before walk = some l ∧
        l.map (fun t => t.m) = walk.filter (merge_criteria r mb before) ∧
        ∀ t ∈ l, ∃ cm, r.find_commit t.m = some cm ∧ cm.parents = [t.a, t.b] ∧
          mb t.a t.b = some t.o ∧ before_ok before cm.time = true := by
  intro walk
  induction walk with
  | nil => intro _; exact ⟨[], rfl, rfl, by simp⟩
  | cons oid rest ih =>
    intro h
    obtain ⟨cm, hcm⟩ := Option.isSome_iff_exists.mp (h oid (List.mem_cons_self _ _))
    obtain ⟨l, hl, hmap, hall⟩ := ih (fun c hc => h c (List.mem_cons_of_mem _ hc))
    by_cases hcrit : (cm.parents.length == 2 && before_ok before cm.time) = true
    · have hok : before_ok before cm.time = true := (Bool.and_eq_true_iff.mp hcrit).2
      have hlen : cm.parents.length = 2 := by
        have := (Bool.and_eq_true_iff.mp hcrit).1
        simpa using this
      obtain ⟨pa, pb, hpab⟩ := List.length_eq_two.mp hlen
      have hget0 : cm.parents.getD 0 0 = pa := by rw [hpab]; rfl
      have hget1 : cm.parents.getD 1 0 = pb := by rw [hpab]; rfl
      have hcrit_eq : merge_criteria r mb before oid = (mb pa pb).isSome := by
        simp only [merge_criteria, hcm, hget0, hget1, hcrit, Bool.true_and]
      cases hb : mb pa pb with
      | some base =>
        refine ⟨⟨base, pa, pb, oid⟩ :: l, ?_, ?_, ?_⟩
        · simp only [find_merges, hcm]
          rw [if_pos hcrit, hget0, hget1, hb, hl]
          rfl
        · rw [List.map_cons, List.filter_cons, hcrit_eq, hb]
          simp [hmap]
        · intro t ht
          rcases List.mem_cons.mp ht with rfl | ht'
          · exact ⟨cm, hcm, by simp [hpab], hb, hok⟩
          · exact hall t ht'
      | none =>
        refine ⟨l, ?_, ?_, hall⟩
        · simp only [find_merges, hcm]
          rw [if_pos hcrit, hget0, hget1, hb]
          exact hl
        · rw [List.filter_cons, hcrit_eq, hb]
          simp [hmap]
    · refine ⟨l, ?_, ?_, hall⟩
      · simp only [find_merges, hcm]
        rw [if_neg hcrit]
        exact hl
      · have hcrit' : merge_criteria r mb before oid = false := by
          simp only [merge_criteria, hcm]
          have hfalse : (cm.parents.length == 2 && before_ok before cm.time) = false :=
            Bool.not_eq_true _ ▸ eq_false_of_ne_true hcrit
          rw [hfalse, Bool.false_and]
        rw [List.filter_cons, hcrit']
        simpa using hmap

/-- Claim C3: with the lowest-common-ancestor collaborator total on the
relevant pairs, `find_merges` emits one quadruple for exactly those
traversed commits with exactly two parents that are strictly earlier than
the `before` bound (when supplied), and every emitted quadruple `(O,A,B,M)`
satisfies `mb A B = some O` and `parents(M) = [A, B]` in recorded order. -/
theorem c3_find_merges (r : Repo) (mb : Nat → Nat → Option Nat) (before : Option Int)
    (walk : List Nat)
    (h_ex : ∀ c ∈ walk, (r.find_commit c).isSome)
    (h_mb : ∀ a b, (mb a b).isSome) :
    ∃ l, find_merges r mb before walk = some l ∧
      l.map (fun t => t.m) = walk.filter (fun c =>
        match r.find_commit c with
        | none => false
        | some cm => cm.parents.length == 2 && before_ok before cm.time) ∧
      ∀ t ∈ l, ∃ cm, r.find_commit t.m = some cm ∧ cm.parents = [t.a, t.b] ∧
        mb t.a t.b = some t.o ∧ before_ok before cm.time = true := by
  obtain ⟨l, hl, hmap, hall⟩ := find_merges_spec r mb before walk h_ex
  refine ⟨l, hl, ?_, hall⟩
  rw [hmap]
  apply List.filter_congr
  intro c _
  simp only [merge_criteria]
  cases hfc : r.find_commit c with
  | none => rfl
  | some cm => simp [h_mb]

/-- Claim C4: when the merge base computation fails for the two parents of a
traversed merge commit, only that candidate is dropped: the scan still
succeeds, no quadruple for that commit appears, and the output is still
exactly the commits satisfying the emission criteria. -/
theorem c4_dropped_candidate (r : Repo) (mb : Nat → Nat → Option Nat)
    (before : Option Int) (walk : List Nat) (M pa pb : Nat) (cm : Commit)
    (h_ex : ∀ c ∈ walk, (r.find_commit c).isSome)
    (hM : r.find_commit M = some cm)
    (hp : cm.parents = [pa, pb])
    (hfail : mb pa pb = none) :
    ∃ l, find_merges r mb before walk = some l ∧
      (∀ t ∈ l, t.m ≠ M) ∧
      l.map (fun t => t.m) = walk.filter (merge_criteria r mb before) := by
  obtain ⟨l, hl, hmap, hall⟩ := find_merges_spec r mb before walk h_ex
  refine ⟨l, hl, ?_, hmap⟩
  intro t ht heq
  obtain ⟨cm', hcm', hp', hmb', -⟩ := hall t ht
  rw [heq, hM] at hcm'
  cases hcm'
  rw [hp] at hp'
  obtain ⟨ha, hb2⟩ := List.cons_eq_cons.mp hp'
  obtain ⟨hb3, -⟩ := List.cons_eq_cons.mp hb2
  rw [← ha, ← hb3, hfail] at hmb'
  exact Option.noConfusion hmb'

/-- A four-commit repository with two binary merges: 2 merges `[0, 1]` and
3 merges `[1, 0]`. -/
def rM : Repo :=
  ⟨[(0, ⟨[], some ("r"), 0, []⟩), (1, ⟨[0], some ("s"), 10, []⟩),
    (2, ⟨[0, 1], some ("m"), 20, []⟩), (3, ⟨[1, 0], some ("m2"), 30, []⟩)]⟩

/-- Witness for C3: a total merge-base collaborator on `rM`. -/
theorem c3_witness :
    ∃ l, find_merges rM (fun _ _ => some 0) none [3, 2, 1, 0] = some l ∧
      l.map (fun t => t.m) = [3, 2, 1, 0].filter (fun c =>
        match rM.find_commit c with
        | none => false
        | some cm => cm.parents.length == 2 && before_ok none cm.time) ∧
      ∀ t ∈ l, ∃ cm, rM.find_commit t.m = some cm ∧ cm.parents = [t.a, t.b] ∧
        (fun _ _ => some 0 : Nat → Nat → Option Nat) t.a t.b = some t.o ∧
        before_ok none cm.time = true :=
  c3_find_merges rM (fun _ _ => some 0) none [3, 2, 1, 0] (by decide)
    (fun _ _ => rfl)

/-- A merge-base collaborator that fails exactly on pairs whose first
element is 0 — so it fails for merge 2 (`parents [0, 1]`) but succeeds for
merge 3 (`parents [1, 0]`). -/
def mb4 : Nat → Nat → Option Nat := fun x _ => if x == 0 then none else some 0

/-- Witness for C4: in `rM`, merge 2's base computation fails and only that
candidate is dropped. -/
theorem c4_witness :
    ∃ l, find_merges rM mb4 none [3, 2, 1, 0] = some l ∧
      (∀ t ∈ l, t.m ≠ 2) ∧
      l.map (fun t => t.m) = [3, 2, 1, 0].filter (merge_criteria rM mb4 none) :=
  c4_dropped_candidate rM mb4 none [3, 2, 1, 0] 2 0 1 ⟨[0, 1], some ("m"), 20, []⟩
    (by decide) rfl rfl rfl

/-! ## Tree diffing (`changed_filenames`, `changed_same_file`)

The tree-to-tree diff is an external collaborator; it is modelled as the
set of paths whose blob differs between the two commits' trees.  The
`expect` on a failed commit lookup is a process abort (`none`). -/

def tree_lookup (t : List (String × Nat)) (p : String) : Option Nat :=
  (t.find? (fun e => e.1 == p)).map (fun e => e.2)

/-- `changed_filenames`: diff two commits' trees and collect the paths of
all deltas (both the old-file and new-file path of each changed entry). -/
def changed_filenames (r : Repo) (old new : Nat) : Option (List String) :=
  match r.find_commit old, r.find_commit new with
  | some ocm, some ncm =>
    some (((ocm.tree.map (fun e => e.1)) ++ (ncm.tree.map (fun e => e.1))).filter
      (fun p => tree_lookup ocm.tree p != tree_lookup ncm.tree p))
  | _, _ => none

/-- Rust `str::ends_with`. -/
def ends_with (s sfx : String) : Bool := sfx.data.isSuffixOf s.data

/-- `changed_same_file`: restrict both diffs' filename sets to those ending
in one of `only_extensions`, and test that the two sets are not disjoint. -/
def changed_same_file (r : Repo) (c1o c1n c2o c2n : Nat)
    (only_extensions : List String) : Option Bool :=
  match changed_filenames r c1o c1n, changed_filenames r c2o c2n with
  | some f1, some f2 =>
    let commit1_files := f1.filter
      (fun fn => only_extensions.any (fun ext => ends_with fn ext))
    let commit2_files := f2.filter
      (fun fn => only_extensions.any (fun ext => ends_with fn ext))
    some (commit1_files.any (fun x => commit2_files.contains x))
  | _, _ => none

/-- `ThreeWayMerge::a_b_change_same_file`: do the `O→A` and `O→B` diffs
touch a common file? -/
def ThreeWayMerge.a_b_change_same_file (t : ThreeWayMerge) (r : Repo)
    (only_extensions : List String) : Option Bool :=
  changed_same_file r t.o t.a t.o t.b only_extensions

/-- Claim C10: with an empty `only_extensions` list the extension filter
retains no filename at all, so `changed_same_file` never reports an overlap
— it returns `false` whenever the two diffs succeed (and can never return
`true`), and `a_b_change_same_file` with an empty list likewise reports no
merge as touching the same file. -/
theorem c10_empty_extension_list (r : Repo) :
    (∀ c1o c1n c2o c2n, changed_same_file r c1o c1n c2o c2n [] ≠ some true) ∧
    (∀ c1o c1n c2o c2n, (changed_filenames r c1o c1n).isSome →
      (changed_filenames r c2o c2n).isSome →
      changed_same_file r c1o c1n c2o c2n [] = some false) ∧
    (∀ t : ThreeWayMerge, (changed_filenames r t.o t.a).isSome →
      (changed_filenames r t.o t.b).isSome →
      ThreeWayMerge.a_b_change_same_file t r [] = some false) := by
  have key : ∀ c1o c1n c2o c2n, (changed_filenames r c1o c1n).isSome →
      (changed_filenames r c2o c2n).isSome →
      changed_same_file r c1o c1n c2o c2n [] = some false := by
    intro c1o c1n c2o c2n h1 h2
    obtain ⟨f1, hf1⟩ := Option.isSome_iff_exists.mp h1
    obtain ⟨f2, hf2⟩ := Option.isSome_iff_exists.mp h2
    simp [changed_same_file, hf1, hf2]
  refine ⟨?_, key, ?_⟩
  · intro c1o c1n c2o c2n heq
    cases hf1 : changed_filenames r c1o c1n with
    | none => simp [changed_same_file, hf1] at heq
    | some f1 =>
      cases hf2 : changed_filenames r c2o c2n with
      | none => simp [changed_same_file, hf1, hf2] at heq
      | some f2 => simp [changed_same_file, hf1, hf2] at heq
  · intro t h1 h2
    exact key t.o t.a t.o t.b h1 h2

/-- Witness for C10: concrete commits of `rM` (whose diffs succeed). -/
theorem c10_witness :
    changed_same_file rM 0 1 0 2 [] = some false ∧
    ThreeWayMerge.a_b_change_same_file ⟨0, 1, 2, 3⟩ rM [] = some false :=
  ⟨(c10_empty_extension_list rM).2.1 0 1 0 2 (by decide) (by decide),
   (c10_empty_extension_list rM).2.2 ⟨0, 1, 2, 3⟩ (by decide) (by decide)⟩

/-! ## Line-level diff and blame (`changed_same_line`)

The per-line diff callback and the blame query are collaborator operations,
bundled in `DiffOracle`: `lines old new` yields the diff callback's line
sequence (or `none` when the diff `expect` aborts); `blame oldest newest
path` yields the per-line-number hunk lookup (or `none` for a blame error,
which the code tolerates with `if let Ok`). -/

inductive DiffLineKind where
  | context
  | addition
  | deletion
  | contextEOFNL
  | addEOFNL
  | deleteEOFNL
  | binary
  | fileHeader
  | hunkHeader
deriving DecidableEq

structure DiffLine where
  origin : DiffLineKind
  path : Option String
  old_lineno : Option Nat
deriving DecidableEq

structure BlameHunk where
  final_commit : Nat
  is_boundary : Bool
deriving DecidableEq

structure DiffOracle where
  lines : Nat → Nat → Option (List DiffLine)
  blame : Nat → Nat → String → Option (Nat → Option BlameHunk)

/-- The five line categories the callback skips before any blame work. -/
def csl_skip (t : DiffLineKind) : Bool :=
  match t with
  | .context | .binary | .addEOFNL | .deleteEOFNL | .contextEOFNL => true
  | _ => false

/-- One execution of the line callback of `changed_same_line` (without the
already-found flag): does this diff line witness an overlap? -/
def csl_line (d : DiffOracle) (bo bn : Nat) (line : DiffLine) : Bool :=
  if csl_skip line.origin then false
  else
    match line.path with
    | none => false
    | some path =>
      match d.blame bo bn path with
      | none => false
      | some get_line =>
        match line.old_lineno with
        | none => false
        | some lno =>
          match get_line lno with
          | none => false
          | some hunk => !hunk.is_boundary

/-- The whole callback sequence: true as soon as one line witnesses an
overlap (the flag makes all later callbacks return immediately). -/
def csl_go (d : DiffOracle) (bo bn : Nat) : List DiffLine → Bool
  | [] => false
  | l :: ls => if csl_line d bo bn l then true else csl_go d bo bn ls

/-- `changed_same_line`: diff `commit_old → commit_new` (abort on failure)
and scan the diff lines for one that blames, over the
`[blame_oldest, blame_newest]` interval, to a non-boundary commit. -/
def changed_same_line (d : DiffOracle)
    (blame_oldest blame_newest commit_old commit_new : Nat) : Option Bool :=
  (d.lines commit_old commit_new).map (csl_go d blame_oldest blame_newest)

/-- Claim C8: context/binary/EOF-marker lines are skipped before any blame
lookup (for every oracle); a line whose blame hunk is at the traversal
boundary contributes no overlap and scanning continues with the remaining
lines; and as soon as a line resolves to a non-boundary commit the check
returns `true` regardless of the remaining lines. -/
theorem c8_changed_same_line (d : DiffOracle) (bo bn : Nat) (l : DiffLine)
    (ls : List DiffLine) :
    (csl_skip l.origin = true →
      csl_line d bo bn l = false ∧ csl_go d bo bn (l :: ls) = csl_go d bo bn ls) ∧
    (∀ path get_line lno hunk, l.path = some path →
      d.blame bo bn path = some get_line → l.old_lineno = some lno →
      get_line lno = some hunk → hunk.is_boundary = true →
      csl_line d bo bn l = false ∧ csl_go d bo bn (l :: ls) = csl_go d bo bn ls) ∧
    (∀ path get_line lno hunk, csl_skip l.origin = false → l.path = some path →
      d.blame bo bn path = some get_line → l.old_lineno = some lno →
      get_line lno = some hunk → hunk.is_boundary = false →
      csl_go d bo bn (l :: ls) = true) := by
  refine ⟨?_, ?_, ?_⟩
  · intro hskip
    have hline : csl_line d bo bn l = false := by
      simp [csl_line, hskip]
    exact ⟨hline, by simp [csl_go, hline]⟩
  · intro path get_line lno hunk hpath hblame hlno hhunk hbd
    have hline : csl_line d bo bn l = false := by
      by_cases hskip : csl_skip l.origin = true
      · simp [csl_line, hskip]
      · simp only [csl_line, if_neg hskip, hpath, hblame, hlno, hhunk, hbd]
        rfl
    exact ⟨hline, by simp [csl_go, hline]⟩
  · intro path get_line lno hunk hskip hpath hblame hlno hhunk hbd
    have hline : csl_line d bo bn l = true := by
      simp only [csl_line, hskip, Bool.false_eq_true, if_neg, hpath, hblame,
        hlno, hhunk, hbd]
      rfl
    simp [csl_go, hline]

/-- An oracle whose blame always answers with a boundary hunk. -/
def dBoundary : DiffOracle :=
  ⟨fun _ _ => some [], fun _ _ _ => some (fun _ => some ⟨7, true⟩)⟩

/-- An oracle whose blame always answers with a non-boundary hunk. -/
def dInterval : DiffOracle :=
  ⟨fun _ _ => some [], fun _ _ _ => some (fun _ => some ⟨7, false⟩)⟩

/-- Witness for C8: a context line is skipped; a boundary-blamed changed
line is no overlap; a non-boundary-blamed changed line short-circuits. -/
theorem c8_witness :
    (csl_line dBoundary 0 5 ⟨.context, some ("f"), some 1⟩ = false ∧
      csl_go dBoundary 0 5 [⟨.context, some ("f"), some 1⟩] = csl_go dBoundary 0 5 []) ∧
    (csl_line dBoundary 0 5 ⟨.deletion, some ("f"), some 1⟩ = false ∧
      csl_go dBoundary 0 5 [⟨.deletion, some ("f"), some 1⟩] = csl_go dBoundary 0 5 []) ∧
    csl_go dInterval 0 5 [⟨.deletion, some ("f"), some 1⟩, ⟨.context, none, none⟩] = true :=
  ⟨(c8_changed_same_line dBoundary 0 5 ⟨.context, some ("f"), some 1⟩ []).1 rfl,
   (c8_changed_same_line dBoundary 0 5 ⟨.deletion, some ("f"), some 1⟩ []).2.1
     ("f") (fun _ => some ⟨7, true⟩) 1 ⟨7, true⟩ rfl rfl rfl rfl rfl,
   (c8_changed_same_line dInterval 0 5 ⟨.deletion, some ("f"), some 1⟩
     [⟨.context, none, none⟩]).2.2
     ("f") (fun _ => some ⟨7, false⟩) 1 ⟨7, false⟩ rfl rfl rfl rfl rfl rfl⟩

/-! ## The overlap filter stages of `print_bug_fix_csv` and
`print_bug_fix_csv_overlapping_lines` (`publish.rs`)

Each stage is an iterator `.filter(..)` whose per-candidate closure
`unwrap`s the commit lookup — a failure aborts the whole pass (`none`). -/

/-- A `.filter(..).collect()` whose predicate may abort the pass. -/
def filterPanic {α : Type} (p : α → Option Bool) : List α → Option (List α)
  | [] => some []
  | x :: xs =>
    match p x with
    | none => none
    | some b => (filterPanic p xs).map (fun res => if b then x :: res else res)

/-- The per-candidate closure of the file-overlap filter: `unwrap` the
commit, reject candidates without exactly one parent, then test whether the
candidate's diff against its single parent shares a file with
`merge_changes`. -/
def file_overlap_pred (r : Repo) (merge_changes : List String) (child : Nat) :
    Option Bool :=
  match r.find_commit child with
  | none => none
  | some cm =>
    if cm.parents.length != 1 then some false
    else
      (changed_filenames r (cm.parents.getD 0 0) child).map
        (fun bugfix_changes => merge_changes.any (fun f => bugfix_changes.contains f))

/-- The per-candidate closure of the line-overlap filter: `unwrap` the
commit, reject candidates without exactly one parent, then run
`changed_same_line` over the `[O, M]` blame interval. -/
def line_overlap_pred (r : Repo) (d : DiffOracle) (o m child : Nat) : Option Bool :=
  match r.find_commit child with
  | none => none
  | some cm =>
    if cm.parents.length != 1 then some false
    else changed_same_line d o m (cm.parents.getD 0 0) child

/-- Everything a successful `filterPanic` keeps passed its predicate. -/
theorem filterPanic_mem {α : Type} (p : α → Option Bool) :
    ∀ (l res : List α), filterPanic p l = some res → ∀ x ∈ res, p x = some true := by
  intro l
  induction l with
  | nil =>
    intro res hres x hx
    simp only [filterPanic, Option.some_inj] at hres
    subst hres
    exact absurd hx (List.not_mem_nil x)
  | cons y ys ih =>
    intro res hres x hx
    cases hp : p y with
    | none => simp [filterPanic, hp] at hres
    | some b =>
      simp only [filterPanic, hp] at hres
      cases hrec : filterPanic p ys with
      | none => rw [hrec] at hres; exact Option.noConfusion hres
      | some res' =>
        rw [hrec] at hres
        simp only [Option.map_some', Option.some_inj] at hres
        subst hres
        cases b with
        | true =>
          rcases List.mem_cons.mp hx with rfl | hx'
          · exact hp
          · exact ih res' hrec x hx'
        | false => exact ih res' hrec x hx

/-- A candidate on which the predicate aborts aborts the whole pass. -/
theorem filterPanic_abort {α : Type} (p : α → Option Bool) :
    ∀ (l : List α) (x : α), x ∈ l → p x = none → filterPanic p l = none := by
  intro l
  induction l with
  | nil => intro x hx; exact absurd hx (List.not_mem_nil x)
  | cons y ys ih =>
    intro x hx hpx
    rcases List.mem_cons.mp hx with rfl | hx'
    · simp [filterPanic, hpx]
    · cases hp : p y with
      | none => simp [filterPanic, hp]
      | some b => simp [filterPanic, hp, ih x hx' hpx]

/-- Claim C7: both the file-overlap and the line-overlap filter reject every
candidate whose parent count is not exactly one — the predicate returns
`false` before looking at any file or line content, and such a candidate
never appears in either filter's output. -/
theorem c7_single_parent_only (r : Repo) (d : DiffOracle) (mc : List String)
    (o m child : Nat) (cm : Commit)
    (h1 : r.find_commit child = some cm)
    (h2 : cm.parents.length ≠ 1) :
    file_overlap_pred r mc child = some false ∧
    line_overlap_pred r d o m child = some false ∧
    (∀ cands res, filterPanic (file_overlap_pred r mc) cands = some res →
      child ∉ res) ∧
    (∀ cands res, filterPanic (line_overlap_pred r d o m) cands = some res →
      child ∉ res) := by
  have hne : (cm.parents.length != 1) = true := by
    simpa using h2
  have hfile : file_overlap_pred r mc child = some false := by
    simp only [file_overlap_pred, h1, hne]
    rfl
  have hline : line_overlap_pred r d o m child = some false := by
    simp only [line_overlap_pred, h1, hne]
    rfl
  refine ⟨hfile, hline, ?_, ?_⟩
  · intro cands res hres hmem
    have := filterPanic_mem _ cands res hres child hmem
    rw [hfile] at this
    exact Bool.noConfusion (Option.some_inj.mp this)
  · intro cands res hres hmem
    have := filterPanic_mem _ cands res hres child hmem
    rw [hline] at this
    exact Bool.noConfusion (Option.some_inj.mp this)

/-- Witness for C7: commit 2 of `rM` has two parents and is excluded by both
overlap filters. -/
theorem c7_witness :
    file_overlap_pred rM [] 2 = some false ∧
    line_overlap_pred rM dInterval 0 3 2 = some false ∧
    (∀ res, filterPanic (file_overlap_pred rM []) [2] = some res → 2 ∉ res) ∧
    (∀ res, filterPanic (line_overlap_pred rM dInterval 0 3) [2] = some res → 2 ∉ res) := by
  obtain ⟨h1, h2, h3, h4⟩ := c7_single_parent_only rM dInterval [] 0 3 2
    ⟨[0, 1], some ("m"), 20, []⟩ rfl (by decide)
  exact ⟨h1, h2, fun res => h3 [2] res, fun res => h4 [2] res⟩

/-- Claim C9 (corrected): the overlap/generation stages do NOT tolerate
per-candidate lookup failures.  Commit 9 does not exist in `rM`; the
file-overlap filter pass over the candidates `[9, 1]` aborts (instead of
excluding 9 and keeping processing 1), and the generation-distance check on
the single candidate 9 aborts as well. -/
theorem c9_counterexample :
    rM.find_commit 9 = none ∧
    filterPanic (file_overlap_pred rM []) [9, 1] = none ∧
    within_n_generations rM 3 9 1 = none :=
  ⟨rfl, rfl, rfl⟩

/-- Claim C9 (amended): only the message filter treats a per-candidate
lookup failure as "exclude this candidate" and continues the pass; the
generation-distance, file-overlap and line-overlap stages `unwrap` the
per-candidate lookup, so a failing candidate aborts the whole filter pass. -/
theorem c9_per_candidate_failures (r : Repo) (d : DiffOracle) :
    (∀ ds, message_filter r ds = ds.filter (keep_fix r)) ∧
    (∀ ds cand, r.find_commit cand = none → cand ∉ message_filter r ds) ∧
    (∀ root child n, r.find_commit child = none →
      within_n_generations r root child n = none) ∧
    (∀ mc child, r.find_commit child = none → file_overlap_pred r mc child = none) ∧
    (∀ o m child, r.find_commit child = none → line_overlap_pred r d o m child = none) ∧
    (∀ (p : Nat → Option Bool) (l : List Nat) (x : Nat), x ∈ l → p x = none →
      filterPanic p l = none) := by
  refine ⟨message_filter_eq r, ?_, ?_, ?_, ?_, fun p l x => filterPanic_abort p l x⟩
  · intro ds cand hfind hmem
    rw [message_filter_eq] at hmem
    have := List.of_mem_filter hmem
    simp [keep_fix, hfind] at this
  · intro root child n hfind
    simp [within_n_generations, hfind]
  · intro mc child hfind
    simp [file_overlap_pred, hfind]
  · intro o m child hfind
    simp [line_overlap_pred, hfind]

/-- Witness for C9 (amended): commit 9 is absent from `rM` — the message
filter drops it and carries on; the other stages abort. -/
theorem c9_witness :
    message_filter rM [9, 1] = [9, 1].filter (keep_fix rM) ∧
    9 ∉ message_filter rM [9, 1] ∧
    within_n_generations rM 3 9 2 = none ∧
    file_overlap_pred rM [] 9 = none ∧
    line_overlap_pred rM dInterval 0 3 9 = none ∧
    filterPanic (file_overlap_pred rM []) [9, 1] = none := by
  obtain ⟨m1, m2, m3, m4, m5, m6⟩ := c9_per_candidate_failures rM dInterval
  exact ⟨m1 [9, 1], m2 [9, 1] 9 rfl, m3 3 9 2 rfl, m4 [] 9 rfl, m5 0 3 9 rfl,
    m6 (file_overlap_pred rM []) [9, 1] 9 (by decide) rfl⟩

end TWMF
